import Mathlib

/-!
Verification development for the ghcr-cleanup-action core: a shallow
embedding of the manifest analyzer, image filter, deletion strategy,
image validator and image deleter, together with theorems about the
frozen specification claims.

Conventions of the embedding:
* A `Pkg` is one package version of the Package Index snapshot
  (`id`, digest `name`, `metadata.container.tags`, `updated_at`).
* Manifests are records with optional `manifests` (child descriptor
  list) and optional `layers`, mirroring the structural JS check
  `if (manifest.manifests)` (an empty list is still truthy).
* External service calls that would throw in TypeScript (fetching a
  missing manifest, dereferencing an absent package) make the embedded
  function return `none`.
* Registry/package-index mutations issued by the code are recorded as
  explicit event values; the GitHub/OCI side effects of
  `putManifest`/`deletePackageVersion`/`loadPackages` (which live in
  `registry.ts`/`package-repo.ts`, outside the analyzed sources) are
  modelled from the spec where needed.
* Logging (`core.info` etc.) is omitted: it never influences control
  flow except where the logged value forces a lookup that can throw,
  and those lookups are kept.
-/

namespace Ghcr

/-- Platform metadata of a child descriptor (`imageManifest.platform`). -/
structure Platform where
  architecture : Option String := none
  variant : Option String := none
deriving DecidableEq, Repr

/-- A child descriptor inside an index manifest (`manifest.manifests[i]`). -/
structure Descriptor where
  digest : String
  platform : Option Platform := none
  artifactType : Option String := none
deriving DecidableEq, Repr

/-- A content layer of a leaf manifest; only the media type matters here. -/
structure Layer where
  mediaType : String
deriving DecidableEq, Repr

/-- A manifest as the code inspects it: `manifests` present (even empty)
means index manifest, otherwise the `layers` list may be present. -/
structure Manifest where
  manifests : Option (List Descriptor) := none
  layers : Option (List Layer) := none
deriving DecidableEq, Repr

/-- One package version of the Package Index snapshot. Timestamps are
modelled as integer milliseconds (`Date.parse` values). -/
structure Pkg where
  id : Nat
  name : String
  tags : List String
  updatedAt : Option Int := none
deriving DecidableEq, Repr

/-- The registry content map: digest to manifest. -/
abbrev Registry := List (String × Manifest)

/-- `registry.getManifestByDigest` on the modelled content map; `none`
models the thrown error for an unknown digest. -/
def lookupManifest (reg : Registry) (digest : String) : Option Manifest :=
  (reg.find? (fun e => e.1 = digest)).map (fun e => e.2)

/-- Modelled from the spec: Package Index `getPackageByDigest(digest) ->
Package|absent` (package-repo.ts is an external collaborator). -/
def getPackageByDigest (index : List Pkg) (digest : String) : Option Pkg :=
  index.find? (fun p => p.name = digest)

/-- Modelled from the spec: Package Index `getTags() -> set<tag>`;
the snapshot's tags in package order. -/
def getTags (index : List Pkg) : List String :=
  index.flatMap (fun p => p.tags)

/-- Modelled from the spec: Package Index `getDigestByTag(tag) ->
digest|absent`. -/
def getDigestByTag (index : List Pkg) (tag : String) : Option String :=
  (index.find? (fun p => tag ∈ p.tags)).map (fun p => p.name)

/-- Modelled from the spec: Package Index `getIdByDigest(digest) ->
id|absent`. -/
def getIdByDigest (index : List Pkg) (digest : String) : Option Nat :=
  (getPackageByDigest index digest).map (fun p => p.id)

/-- Replace the first occurrence of `pat` in a character list by `repl`
(JS `String.prototype.replace` with a string pattern). -/
def replaceFirstAux (pat repl : List Char) : List Char → List Char
  | [] => []
  | c :: cs =>
    if pat.isPrefixOf (c :: cs) then repl ++ (c :: cs).drop pat.length
    else c :: replaceFirstAux pat repl cs

/-- JS `s.replace(pat, repl)` for string patterns: first occurrence only. -/
def replaceFirst (s pat repl : String) : String :=
  ⟨replaceFirstAux pat.data repl.data s.data⟩

/-- JS `s.startsWith(pre)`. Implemented on character lists so that it
reduces inside the kernel. -/
def strStartsWith (s pre : String) : Bool :=
  pre.data.isPrefixOf s.data

/-- JS `digest.replace('sha256:', 'sha256-')`: replace the first
occurrence of `sha256:` by `sha256-`. -/
def referrerTagOf (digest : String) : String :=
  replaceFirst digest "sha256:" "sha256-"

/-- `ManifestAnalyzer.buildLabel` (manifest-analyzer.ts): classification
string for a child descriptor; fetches the child manifest only in the
`unknown`-architecture branch, where a missing manifest (or an empty
layer list, whose first element the code dereferences) aborts. -/
def buildLabel (reg : Registry) (d : Descriptor) : Option String :=
  match d.platform with
  | some pl =>
    let label := match pl.architecture with
      | some a => if a ≠ "" then a else ""
      | none => ""
    if label ≠ "unknown" then
      let label := match pl.variant with
        | some v => label ++ "/" ++ v
        | none => label
      some ("architecture: " ++ label)
    else
      match lookupManifest reg d.digest with
      | none => none
      | some m =>
        match m.layers with
        | some [] => none
        | some (l0 :: _) =>
          if l0.mediaType = "application/vnd.in-toto+json" then
            some "application/vnd.in-toto+json"
          else some ""
        | none => some ""
  | none =>
    match d.artifactType with
    | some at0 =>
      if strStartsWith at0 "application/vnd.dev.sigstore.bundle" then
        some "sigstore attestation"
      else some at0
    | none => some ""

/-- A `deletePackageVersion` call issued by the image deleter, with the
arguments the code passes. -/
structure DelEvent where
  id : Nat
  digest : String
  tags : List String
  label : Option String
deriving DecidableEq, Repr

/-- Session state of `ImageDeleter`: the (immutable during deletion)
snapshot and registry, the child-to-parents map, the session-scoped
deleted set and the log of issued deletions. -/
structure DeleterState where
  index : List Pkg
  registry : Registry
  usedBy : List (String × List String)
  deleted : List String
  events : List DelEvent
deriving DecidableEq, Repr

/-- `digestUsedBy.get(name)` on the modelled association list. -/
def lookupUsedBy (u : List (String × List String)) (name : String) :
    Option (List String) :=
  (u.find? (fun e => e.1 = name)).map (fun e => e.2)

/-- `digestUsedBy.delete(name)`. -/
def eraseUsedByKey (u : List (String × List String)) (name : String) :
    List (String × List String) :=
  u.filter (fun e => ¬ e.1 = name)

/-- `digestUsedBy.get(name).delete(parent)`: remove one parent from the
parent set stored under `name`. -/
def removeParent (u : List (String × List String)) (name parent : String) :
    List (String × List String) :=
  u.map (fun e => if e.1 = name then (e.1, e.2.erase parent) else e)

/-- The child-handling step of `ImageDeleter.deleteImage`
(image-deleter lines 122-149): look the child package up in the
snapshot, skip it if already deleted or unmapped, delete it outright
when this parent is its only recorded parent, otherwise drop this
parent from its parent set. Returns the new state and the number of
deletions (0 or 1). -/
def deleteChild (parentName : String) (s : DeleterState) (d : Descriptor) :
    Option (DeleterState × Nat) :=
  match getPackageByDigest s.index d.digest with
  | none => some (s, 0)
  | some mp =>
    if mp.name ∈ s.deleted then some (s, 0)
    else
      match lookupUsedBy s.usedBy mp.name with
      | none => some (s, 0)
      | some parents =>
        if parents.length = 1 ∧ parentName ∈ parents then
          match buildLabel s.registry d with
          | none => none
          | some lab =>
            some ({ s with
                      events := s.events ++ [⟨mp.id, mp.name, [], some lab⟩],
                      deleted := s.deleted ++ [mp.name],
                      usedBy := eraseUsedByKey s.usedBy mp.name }, 1)
        else
          some ({ s with usedBy := removeParent s.usedBy mp.name parentName }, 0)

/-- Fold `deleteChild` over the child descriptor list of an index
manifest, accumulating the child deletion count. -/
def childFold (parentName : String) :
    DeleterState → List Descriptor → Option (DeleterState × Nat)
  | s, [] => some (s, 0)
  | s, d :: ds =>
    match deleteChild parentName s d with
    | none => none
    | some (s', n) =>
      match childFold parentName s' ds with
      | none => none
      | some (s'', n') => some (s'', n + n')

/-- The referrer scan of `deleteImage` (image-deleter lines 152-168):
walk the tag list, and for each tag carrying the parent's
`sha256-<hex>` prefix resolve and recursively delete the referrer
package through the supplied recursive call. -/
def runReferrers
    (rec : DeleterState → Pkg → Option (DeleterState × Nat × Nat))
    (pfx : String) :
    DeleterState → List String → Nat → Nat → Option (DeleterState × Nat × Nat)
  | s, [], del, multi => some (s, del, multi)
  | s, t :: ts, del, multi =>
    if strStartsWith t pfx then
      match getDigestByTag s.index t with
      | none => runReferrers rec pfx s ts del multi
      | some md =>
        match getPackageByDigest s.index md with
        | none => runReferrers rec pfx s ts del multi
        | some ap =>
          match rec s ap with
          | none => none
          | some (s', d', m') => runReferrers rec pfx s' ts (del + d') (multi + m')
    else runReferrers rec pfx s ts del multi

/-- The self-deletion step of `deleteImage` (image-deleter lines
110-117): issue `deletePackageVersion` for the package itself (with its
tag list) and add its digest to the session deleted set. -/
def markSelfDeleted (pkg : Pkg) (s : DeleterState) : DeleterState :=
  { s with
      events := s.events ++ [⟨pkg.id, pkg.name, pkg.tags, none⟩],
      deleted := s.deleted ++ [pkg.name] }

/-- The non-recursive part of `deleteImage` (image-deleter lines
104-150): delete the package version itself, then, for an index
manifest, run the child loop; accumulates the deletion and multi-arch
counters. -/
def childPhase (pkg : Pkg) (s : DeleterState) (manifest : Manifest) :
    Option (DeleterState × Nat × Nat) :=
  match manifest.manifests with
  | some children =>
    match childFold pkg.name (markSelfDeleted pkg s) children with
    | none => none
    | some (s2, n) => some (s2, 1 + n, 1)
  | none => some (markSelfDeleted pkg s, 1, 0)

/-- `ImageDeleter.deleteImage` (image-deleter lines 94-171): no-op when
the digest is already in the session deleted set; otherwise fetch the
manifest, delete the package version itself, handle index-manifest
children via `deleteChild`, then recursively delete referrer packages.
The `fuel` argument bounds the referrer recursion depth; `none` means
the modelled run did not complete (fuel exhausted or a thrown error). -/
def deleteImage : Nat → DeleterState → Pkg → Option (DeleterState × Nat × Nat)
  | 0, _, _ => none
  | fuel + 1, s, pkg =>
    if pkg.name ∈ s.deleted then some (s, 0, 0)
    else
      match lookupManifest s.registry pkg.name with
      | none => none
      | some manifest =>
        match childPhase pkg s manifest with
        | none => none
        | some (s2, del, multi) =>
          runReferrers (fun s' p' => deleteImage fuel s' p')
            (referrerTagOf pkg.name) s2 (getTags s2.index) del multi

/-- `ImageDeleter.reset`. -/
def resetDeleter (s : DeleterState) : DeleterState :=
  { s with deleted := [] }

/-! ## Manifest Analyzer: `loadDigestUsedByMap` -/

/-- `untagOperations`/`digestUsedBy` insertion: append `tag` to the list
stored under `md`, creating the entry when absent (`if (!map.has(md))
map.set(md, []); map.get(md).push(tag)`). -/
def addOp (ops : List (String × List String)) (md tag : String) :
    List (String × List String) :=
  if ops.any (fun e => e.1 = md) then
    ops.map (fun e => if e.1 = md then (e.1, e.2 ++ [tag]) else e)
  else ops ++ [(md, [tag])]

/-- One parent's child scan in `loadDigestUsedByMap` (manifest-analyzer
lines 42-57): for each child digest still in the live digest set, record
the parent and remove the child from the live set. -/
def recordChildren (parent : String) (children : List Descriptor)
    (live : List String) (acc : List (String × List String)) :
    List String × List (String × List String) :=
  children.foldl
    (fun (p : List String × List (String × List String)) c =>
      if c.digest ∈ p.1 then (p.1.erase c.digest, addOp p.2 c.digest parent)
      else p)
    (live, acc)

/-- The iteration of `ManifestAnalyzer.loadDigestUsedByMap` (lines
16-64). JS `for (const digest of digests)` over a `Set` being mutated
visits elements in insertion order and skips elements already deleted,
so the model walks the original order and checks membership in the live
set. A failed manifest fetch would throw, hence `none`. -/
def loadUsedByGo (reg : Registry) :
    List String → List String → List (String × List String) →
    Option (List (String × List String))
  | [], _, acc => some acc
  | d :: rest, live, acc =>
    if d ∈ live then
      match lookupManifest reg d with
      | none => none
      | some m =>
        match m.manifests with
        | some children =>
          let p := recordChildren d children live acc
          loadUsedByGo reg rest p.1 p.2
        | none => loadUsedByGo reg rest live acc
    else loadUsedByGo reg rest live acc

/-- `ManifestAnalyzer.loadDigestUsedByMap`: build the child-to-parents
map over the snapshot's digests. -/
def loadDigestUsedByMap (reg : Registry) (index : List Pkg) :
    Option (List (String × List String)) :=
  let digests := index.map (fun p => p.name)
  loadUsedByGo reg digests digests []

/-! ## Image Filter: `applyAgeFilter` and `expandTags` -/

/-- `ImageFilter.applyAgeFilter` (image-filter): with no `older-than`
configured the candidate set is untouched; otherwise every digest whose
package has an `updated_at` at or after `now - olderThan` is removed,
and packages without `updated_at` are kept. A digest without a package
record would make the code throw (`ghPackage.updated_at` on
`undefined`), hence `none`. -/
def applyAgeFilter (olderThan : Option Int) (now : Int) (index : List Pkg) :
    List String → Option (List String)
  | [] => some []
  | d :: rest =>
    match olderThan with
    | none => some (d :: rest)
    | some dur =>
      match getPackageByDigest index d with
      | none => none
      | some p =>
        match applyAgeFilter olderThan now index rest with
        | none => none
        | some tail =>
          match p.updatedAt with
          | some ts => if ts ≥ now - dur then some tail else some (d :: tail)
          | none => some (d :: tail)

/-- Set-flavoured list insertion (JS `Set.prototype.add`). -/
def setInsert (l : List String) (x : String) : List String :=
  if x ∈ l then l else l ++ [x]

/-- The first loop of `ImageFilter.expandTags`: walk the candidate set
and collect each package's tags that match the selector (the package
lookup would throw for a dangling digest). -/
def collectMatchingTags (matchFn : String → Bool) (index : List Pkg) :
    List String → List String → Option (List String)
  | [], acc => some acc
  | digest :: rest, acc =>
    match getPackageByDigest index digest with
    | none => none
    | some p =>
      collectMatchingTags matchFn index rest
        (p.tags.foldl (fun a t => if matchFn t then setInsert a t else a) acc)

/-- `ImageFilter.expandTags` (image-filter): collect candidate-set tags
matching the delete-tags selector, then candidate digests matching it.
The wildcard/regex matcher itself (the external `wildcard-match` /
`RegExp` machinery) is abstracted as the Boolean predicate `matchFn`. -/
def expandTags (matchFn : String → Bool) (index : List Pkg)
    (filterSet : List String) : Option (List String) :=
  match collectMatchingTags matchFn index filterSet [] with
  | none => none
  | some withTags =>
    some (filterSet.foldl
      (fun a d => if matchFn d then setInsert a d else a) withTags)

/-! ## Deletion Strategy: `processTagDeletions` -/

/-- A deletion plan: digests to delete outright and per-digest tag lists
to detach by untagging. -/
structure Plan where
  deleteSet : List String
  untagOps : List (String × List String)
deriving DecidableEq, Repr

/-- The classification loop of `DeletionStrategy.processTagDeletions`
(deletion-strategy lines 45-69): split matched, non-excluded tags into
standard deletions (raw digests and single-tag packages) and untag
operations (multi-tag packages). Dereferencing the package of a
resolvable tag that is absent from the snapshot would throw. -/
def classifyTags (index : List Pkg) (excludeTags : List String) :
    List String → List String → List (String × List String) →
    Option (List String × List (String × List String))
  | [], std, ops => some (std, ops)
  | tag :: rest, std, ops =>
    if tag ∈ excludeTags then classifyTags index excludeTags rest std ops
    else if strStartsWith tag "sha256:" then
      classifyTags index excludeTags rest (setInsert std tag) ops
    else
      match getDigestByTag index tag with
      | none => classifyTags index excludeTags rest std ops
      | some md =>
        match getPackageByDigest index md with
        | none => none
        | some gh =>
          if gh.tags.length > 1 then
            classifyTags index excludeTags rest std (addOp ops md tag)
          else if gh.tags.length = 1 then
            classifyTags index excludeTags rest (setInsert std tag) ops
          else classifyTags index excludeTags rest std ops

/-- Digest resolution inside the standard-deletion loop (lines 79-84):
a raw digest resolves to itself, a tag through the snapshot. -/
def resolveTag (index : List Pkg) (tag : String) : Option String :=
  if strStartsWith tag "sha256:" then some tag
  else getDigestByTag index tag

/-- The standard-deletion loop of `processTagDeletions` (lines 77-89):
resolve each standard tag to a digest, add it to the delete set and
remove it from the candidate set. -/
def applyStandardTags (index : List Pkg) :
    List String → List String → List String → List String × List String
  | [], ds, fs => (ds, fs)
  | tag :: rest, ds, fs =>
    match resolveTag index tag with
    | some d => applyStandardTags index rest (setInsert ds d) (fs.erase d)
    | none => applyStandardTags index rest ds fs

/-- `DeletionStrategy.processTagDeletions` (deletion-strategy lines
17-94): returns the plan and the updated candidate set.
`deleteTagsCfg` models the truthiness of `config.deleteTags`, and
`keepNtagged` the `keep-n-tagged` option; standard deletions run only
when `keepNtagged` is unset. -/
def processTagDeletions (deleteTagsCfg : Bool) (keepNtagged : Option Nat)
    (matchFn : String → Bool) (index : List Pkg)
    (filterSet : List String) (excludeTags : List String) :
    Option (Plan × List String) :=
  if deleteTagsCfg then
    match expandTags matchFn index filterSet with
    | none => none
    | some matchTags =>
      if matchTags = [] then some (⟨[], []⟩, filterSet)
      else
        match classifyTags index excludeTags matchTags [] [] with
        | none => none
        | some (std, ops) =>
          if std ≠ [] ∧ keepNtagged = none then
            let p := applyStandardTags index std [] filterSet
            some (⟨p.1, ops⟩, p.2)
          else some (⟨[], ops⟩, filterSet)
  else some (⟨[], []⟩, filterSet)

/-! ## Image Validator: ghost and partial images -/

/-- Per-digest ghost check of `ImageValidator.findGhostImages`
(image-validator lines 91-109): an index manifest all of whose children
are absent from the snapshot (this includes an empty child list). The
package lookup backing the log line runs only for flagged digests. -/
def ghostFlag (reg : Registry) (index : List Pkg) (d : String) :
    Option (List String) :=
  match lookupManifest reg d with
  | none => none
  | some m =>
    match m.manifests with
    | some children =>
      if children.countP (fun c => (getIdByDigest index c.digest).isNone)
          = children.length then
        match getPackageByDigest index d with
        | none => none
        | some _ => some [d]
      else some []
    | none => some []

/-- `ImageValidator.findGhostImages` over the candidate set. -/
def findGhostImages (reg : Registry) (index : List Pkg) :
    List String → Option (List String)
  | [] => some []
  | d :: rest =>
    match ghostFlag reg index d with
    | none => none
    | some h =>
      match findGhostImages reg index rest with
      | none => none
      | some t => some (h ++ t)

/-- Per-digest partial check of `ImageValidator.findPartialImages`
(image-validator lines 129-145): flagged as soon as one child is absent
from the snapshot (the loop `break`s at the first missing child). -/
def partialFlag (reg : Registry) (index : List Pkg) (d : String) :
    Option (List String) :=
  match lookupManifest reg d with
  | none => none
  | some m =>
    match m.manifests with
    | some children =>
      if children.any (fun c => (getIdByDigest index c.digest).isNone) then
        match getPackageByDigest index d with
        | none => none
        | some _ => some [d]
      else some []
    | none => some []

/-- `ImageValidator.findPartialImages` over the candidate set. -/
def findPartialImages (reg : Registry) (index : List Pkg) :
    List String → Option (List String)
  | [] => some []
  | d :: rest =>
    match partialFlag reg index d with
    | none => none
    | some h =>
      match findPartialImages reg index rest with
      | none => none
      | some t => some (h ++ t)

/-! ## Image Deleter: `performUntagging`

The untagging phase mutates the remote store, so the model keeps a
`World` (the authoritative store) and a `snapshot` (the Package Index
view), with `loadPackages` copying the former into the latter. -/

/-- Modelled from the spec: the authoritative remote store behind the
Registry and Package Index contracts (registry.ts / package-repo.ts are
external collaborators). `nextId` feeds the store-assigned ids and the
registry-minted digests. -/
structure World where
  pkgs : List Pkg
  registry : Registry
  nextId : Nat
deriving DecidableEq, Repr

/-- Modelled from the spec: `Registry.putManifest(tag, manifest,
isIndexManifest)` — content-addressed write that makes the registry mint
a new digest for the tag, detaching the tag from whichever package held
it while leaving that package's other tags intact. -/
def putManifestW (w : World) (tag : String) (m : Manifest) : World :=
  let newDigest := "sha256:minted" ++ toString w.nextId
  { pkgs := (w.pkgs.map (fun p => { p with tags := p.tags.erase tag }))
      ++ [⟨w.nextId, newDigest, [tag], none⟩],
    registry := w.registry ++ [(newDigest, m)],
    nextId := w.nextId + 1 }

/-- Modelled from the spec: `PackageIndex.deletePackageVersion` — the
identified package version disappears from the store. -/
def deleteVersionW (w : World) (id : Nat) : World :=
  { w with pkgs := w.pkgs.filter (fun p => ¬ p.id = id) }

/-- A registry/package-index mutation issued by `performUntagging`.
`put` additionally records the tag list of the target package observed
at the guard (`ghPackage.metadata.container.tags`), and `del` records
the loop tag the deletion was issued for; both values are data the code
reads at that point. -/
inductive UEvent where
  | put (tag : String) (manifest : Manifest) (isIndex : Bool)
      (obsTags : List String)
  | del (id : Nat) (digest : String) (tags : List String) (forTag : String)
deriving DecidableEq, Repr

/-- State threaded through `performUntagging`: the store, the Package
Index snapshot and the mutation log. -/
structure UntagState where
  world : World
  snapshot : List Pkg
  events : List UEvent
deriving DecidableEq, Repr

/-- One tag's untagging step (image-deleter lines 38-83): recheck the
tag count on the snapshot, write an emptied clone of the manifest under
the same tag, re-snapshot, locate the newly created package by tag and
delete that version, passing `[tag]`. A snapshot miss for the target
digest would throw (`ghPackage.metadata` on `undefined`), as would a
missing manifest. -/
def untagOne (st : UntagState) (manifestDigest tag : String) :
    Option UntagState :=
  match getPackageByDigest st.snapshot manifestDigest with
  | none => none
  | some ghPackage =>
    if ghPackage.tags.length > 1 then
      match lookupManifest st.world.registry manifestDigest with
      | none => none
      | some manifest =>
        let newManifest : Manifest :=
          match manifest.manifests with
          | some _ => { manifest with manifests := some [] }
          | none => { manifest with layers := some [] }
        let isIndex := manifest.manifests.isSome
        let w1 := putManifestW st.world tag newManifest
        let ev1 := st.events ++ [UEvent.put tag newManifest isIndex ghPackage.tags]
        let snap1 := w1.pkgs
        match getDigestByTag snap1 tag with
        | none => some { world := w1, snapshot := snap1, events := ev1 }
        | some untaggedDigest =>
          match getIdByDigest snap1 untaggedDigest with
          | none => some { world := w1, snapshot := snap1, events := ev1 }
          | some id =>
            some { world := deleteVersionW w1 id, snapshot := snap1,
                   events := ev1 ++ [UEvent.del id untaggedDigest [tag] tag] }
    else some st

/-- Inner tag loop of `performUntagging` for one untag-operations entry. -/
def untagTags (manifestDigest : String) :
    UntagState → List String → Option UntagState
  | st, [] => some st
  | st, tag :: rest =>
    match untagOne st manifestDigest tag with
    | none => none
    | some st' => untagTags manifestDigest st' rest

/-- Outer entry loop of `performUntagging`. -/
def untagEntries : UntagState → List (String × List String) → Option UntagState
  | st, [] => some st
  | st, (md, tags) :: rest =>
    match untagTags md st tags with
    | none => none
    | some st' => untagEntries st' rest

/-- `ImageDeleter.performUntagging` (image-deleter lines 21-89): returns
`false` immediately for an empty untag-operations map and `true` after
processing a non-empty one. -/
def performUntagging (ops : List (String × List String)) (st : UntagState) :
    Option (UntagState × Bool) :=
  if ops = [] then some (st, false)
  else
    match untagEntries st ops with
    | none => none
    | some st' => some (st', true)

/-- The `put` events of an untagging trace. -/
def putEvents (evs : List UEvent) : List UEvent :=
  evs.filter (fun e => match e with | UEvent.put _ _ _ _ => true | _ => false)

/-- The `(tags, forTag)` argument pairs of the `del` events of a trace. -/
def delTagArgs (evs : List UEvent) : List (List String × String) :=
  evs.filterMap (fun e => match e with
    | UEvent.del _ _ tags forTag => some (tags, forTag)
    | _ => none)

/-! ## Concrete states for the scenario claims -/

/-- Child descriptor `C1` of Scenario A/B: platform `amd64`. -/
def descC1 : Descriptor :=
  { digest := "sha256:c1", platform := some { architecture := some "amd64" } }

/-- Child descriptor `C2` of Scenario A/B: platform `arm64`. -/
def descC2 : Descriptor :=
  { digest := "sha256:c2", platform := some { architecture := some "arm64" } }

/-- Registry of Scenario A/B: `P` is an index manifest with children
`C1`, `C2`; the children are leaf manifests. -/
def regAB : Registry :=
  [("sha256:p", { manifests := some [descC1, descC2] }),
   ("sha256:c1", { layers := some [⟨"application/octet-stream"⟩] }),
   ("sha256:c2", { layers := some [⟨"application/octet-stream"⟩] })]

/-- Package Index snapshot of Scenario A/B: `P`, `C1`, `C2` all present. -/
def idxAB : List Pkg :=
  [⟨1, "sha256:p", ["v1"], none⟩, ⟨2, "sha256:c1", [], none⟩,
   ⟨3, "sha256:c2", [], none⟩]

/-- The parent package `P` of Scenario A/B. -/
def pkgP : Pkg := ⟨1, "sha256:p", ["v1"], none⟩

/-- Scenario A deleter state: used-by(`C1`) = used-by(`C2`) = set
containing `P` alone. -/
def stScnA : DeleterState :=
  { index := idxAB, registry := regAB,
    usedBy := [("sha256:c1", ["sha256:p"]), ("sha256:c2", ["sha256:p"])],
    deleted := [], events := [] }

/-- Scenario B deleter state: `C1` additionally referenced by `Q`. -/
def stScnB : DeleterState :=
  { stScnA with
      usedBy := [("sha256:c1", ["sha256:p", "sha256:q"]),
                 ("sha256:c2", ["sha256:p"])] }

/-- Registry of the nested-chain scenario: `P` lists child `C`; `C` is
itself an index manifest listing grandchild `G`; `A` is a referrer
artifact of `C` (tagged `sha256-c.sig`). -/
def regChain : Registry :=
  [("sha256:p", { manifests := some [⟨"sha256:c", some { architecture := some "amd64" }, none⟩] }),
   ("sha256:c", { manifests := some [⟨"sha256:g", some { architecture := some "arm64" }, none⟩] }),
   ("sha256:g", { layers := some [⟨"application/octet-stream"⟩] }),
   ("sha256:a", { layers := some [⟨"application/octet-stream"⟩] })]

/-- Package Index snapshot of the nested-chain scenario. -/
def idxChain : List Pkg :=
  [⟨1, "sha256:p", ["latest"], none⟩, ⟨2, "sha256:c", [], none⟩,
   ⟨3, "sha256:g", [], none⟩, ⟨4, "sha256:a", ["sha256-c.sig"], none⟩]

/-- Deleter state of the nested-chain scenario: `C` only used by `P`,
`G` only used by `C`. -/
def stChain : DeleterState :=
  { index := idxChain, registry := regChain,
    usedBy := [("sha256:c", ["sha256:p"]), ("sha256:g", ["sha256:c"])],
    deleted := [], events := [] }

/-- The parent package of the nested-chain scenario. -/
def pkgPChain : Pkg := ⟨1, "sha256:p", ["latest"], none⟩

/-- A one-package deleter state (leaf manifest, no tags). -/
def stOne : DeleterState :=
  { index := [⟨1, "sha256:x", [], none⟩],
    registry := [("sha256:x", { layers := some [⟨"application/octet-stream"⟩] })],
    usedBy := [], deleted := [], events := [] }

/-- The package of `stOne`. -/
def pkgX : Pkg := ⟨1, "sha256:x", [], none⟩

/-- `stOne` after its only package was deleted once. -/
def stOneDone : DeleterState :=
  { stOne with deleted := ["sha256:x"], events := [⟨1, "sha256:x", [], none⟩] }

/-- Registry where two index-manifest parents `P1`, `P2` both list the
same child `C`. -/
def regTwoParents : Registry :=
  [("sha256:p1", { manifests := some [⟨"sha256:c", none, none⟩] }),
   ("sha256:p2", { manifests := some [⟨"sha256:c", none, none⟩] }),
   ("sha256:c", { layers := some [⟨"application/octet-stream"⟩] })]

/-- Package Index snapshot for the two-parents scenario. -/
def idxTwoParents : List Pkg :=
  [⟨1, "sha256:p1", ["a"], none⟩, ⟨2, "sha256:p2", ["b"], none⟩,
   ⟨3, "sha256:c", [], none⟩]

/-- Store for the untagging scenarios: one package `sha256:d1` holding
tags `v1` and `latest`, with an index manifest. -/
def wUntag : World :=
  ⟨[⟨1, "sha256:d1", ["v1", "latest"], none⟩],
   [("sha256:d1", { manifests := some [⟨"sha256:k", none, none⟩] })], 10⟩

/-- Untagging state over `wUntag` with a fresh snapshot and empty trace. -/
def stUntag : UntagState := ⟨wUntag, wUntag.pkgs, []⟩

/-- The untag-operations map detaching `v1` from `sha256:d1`. -/
def opsUntag : List (String × List String) := [("sha256:d1", ["v1"])]

/-- Store for the single-tag untagging scenario: `sha256:d1` holds only
`v1`. -/
def wSingle : World :=
  ⟨[⟨1, "sha256:d1", ["v1"], none⟩],
   [("sha256:d1", { layers := some [⟨"application/octet-stream"⟩] })], 10⟩

/-- Untagging state over `wSingle`. -/
def stSingle : UntagState := ⟨wSingle, wSingle.pkgs, []⟩

/-- The state after untagging `v1` from `sha256:d1` in `stUntag`: the
registry minted `sha256:minted10` for the empty manifest written under
`v1`, the re-snapshot shows the minted package holding `v1`, and that
package version was deleted from the store; the trace holds the
manifest write and the deletion issued with `[v1]`. -/
def stUntagDone : UntagState :=
  { world :=
      { pkgs := [⟨1, "sha256:d1", ["latest"], none⟩],
        registry :=
          [("sha256:d1", { manifests := some [⟨"sha256:k", none, none⟩] }),
           ("sha256:minted10", { manifests := some [] })],
        nextId := 11 },
    snapshot := [⟨1, "sha256:d1", ["latest"], none⟩,
                 ⟨10, "sha256:minted10", ["v1"], none⟩],
    events := [UEvent.put "v1" { manifests := some [] } true ["v1", "latest"],
               UEvent.del 10 "sha256:minted10" ["v1"] "v1"] }

/-- Registry of Scenario D: `ghost1` is an index manifest listing two
children, neither present in the index. -/
def regGhost : Registry :=
  [("ghost1", { manifests := some [⟨"sha256:m1", none, none⟩,
                                   ⟨"sha256:m2", none, none⟩] })]

/-- Package Index snapshot of Scenario D: only `ghost1` exists. -/
def idxGhost : List Pkg := [⟨1, "ghost1", [], none⟩]

/-- Snapshot for the tag-deletion strategy scenario: `sha256:d1` has a
single tag `t1`, `sha256:d2` has tags `t2` and `t3`. -/
def idxStrat : List Pkg :=
  [⟨1, "sha256:d1", ["t1"], none⟩, ⟨2, "sha256:d2", ["t2", "t3"], none⟩]

/-- Tag selector of the strategy scenario: matches `t1` and `t2`. -/
def matchT12 : String → Bool :=
  fun t => if t = "t1" then true else if t = "t2" then true else false

/-- Snapshot for the age-filter scenario: `d1` has no `updated_at`,
`d2` was updated exactly at the cutoff instant. -/
def idxAge : List Pkg :=
  [⟨1, "d1", [], none⟩, ⟨2, "d2", [], some 500⟩]

/-- Membership of a tag under a digest in an untag-operations /
used-by style association list. -/
def opsContains (ops : List (String × List String)) (md tag : String) : Prop :=
  ∃ e ∈ ops, e.1 = md ∧ tag ∈ e.2

/-! ## Lemmas about the image deleter -/

/-- Case analysis of one child-handling step: it either leaves the
deleted set and the event log untouched, or deletes exactly the child
package itself — one `deletePackageVersion` call with an empty tag list
and a label, and no recursion into the child's own structure. -/
theorem deleteChild_shape (pn : String) (s : DeleterState) (d : Descriptor)
    (s' : DeleterState) (n : Nat) (h : deleteChild pn s d = some (s', n)) :
    (s'.deleted = s.deleted ∧ s'.events = s.events ∧ s'.index = s.index ∧
      n = 0) ∨
    (∃ mp lab, getPackageByDigest s.index d.digest = some mp ∧
      s'.deleted = s.deleted ++ [mp.name] ∧
      s'.events = s.events ++ [⟨mp.id, mp.name, [], some lab⟩] ∧
      s'.index = s.index ∧ n = 1) := by
  unfold deleteChild at h
  split at h
  · cases h
    exact Or.inl ⟨rfl, rfl, rfl, rfl⟩
  · rename_i mp hmp
    split at h
    · cases h
      exact Or.inl ⟨rfl, rfl, rfl, rfl⟩
    · split at h
      · cases h
        exact Or.inl ⟨rfl, rfl, rfl, rfl⟩
      · rename_i parents hparents
        split at h
        · split at h
          · exact Option.noConfusion h
          · rename_i lab hlab
            cases h
            exact Or.inr ⟨mp, lab, hmp, rfl, rfl, rfl, rfl⟩
        · cases h
          exact Or.inl ⟨rfl, rfl, rfl, rfl⟩

/-- A child step never removes entries from the session deleted set. -/
theorem deleteChild_deleted_sub (pn : String) (s : DeleterState)
    (d : Descriptor) (s' : DeleterState) (n : Nat)
    (h : deleteChild pn s d = some (s', n)) :
    ∀ x ∈ s.deleted, x ∈ s'.deleted := by
  rcases deleteChild_shape pn s d s' n h with ⟨h1, _⟩ | ⟨mp, lab, _, h1, _⟩
  · rw [h1]; exact fun x hx => hx
  · rw [h1]; exact fun x hx => List.mem_append_left _ hx

/-- The child loop never removes entries from the session deleted set. -/
theorem childFold_deleted_sub (pn : String) (ds : List Descriptor) :
    ∀ (s s' : DeleterState) (n : Nat), childFold pn s ds = some (s', n) →
      ∀ x ∈ s.deleted, x ∈ s'.deleted := by
  induction ds with
  | nil =>
    intro s s' n h x hx
    unfold childFold at h
    cases h
    exact hx
  | cons d ds ih =>
    intro s s' n h x hx
    unfold childFold at h
    rcases hd : deleteChild pn s d with _ | ⟨s1, n1⟩ <;> simp only [hd] at h
    · exact Option.noConfusion h
    · rcases hf : childFold pn s1 ds with _ | ⟨s2, n2⟩ <;> simp only [hf] at h
      · exact Option.noConfusion h
      · simp only [Option.some.injEq, Prod.mk.injEq] at h
        obtain ⟨rfl, -⟩ := h
        exact ih s1 _ n2 hf x (deleteChild_deleted_sub pn s d s1 n1 hd x hx)

/-- The package-and-children phase adds the package itself to the
deleted set and never removes entries. -/
theorem childPhase_deleted_sub (pkg : Pkg) (s : DeleterState)
    (manifest : Manifest) (r : DeleterState × Nat × Nat)
    (h : childPhase pkg s manifest = some r) :
    (∀ x ∈ s.deleted, x ∈ r.1.deleted) ∧ pkg.name ∈ r.1.deleted := by
  have hself : pkg.name ∈ (markSelfDeleted pkg s).deleted :=
    List.mem_append_right _ (List.mem_singleton.mpr rfl)
  have hkeep : ∀ x ∈ s.deleted, x ∈ (markSelfDeleted pkg s).deleted :=
    fun x hx => List.mem_append_left _ hx
  unfold childPhase at h
  rcases hm : manifest.manifests with _ | children <;> simp only [hm] at h
  · cases h
    exact ⟨hkeep, hself⟩
  · rcases hf : childFold pkg.name (markSelfDeleted pkg s) children
        with _ | ⟨s2, n2⟩ <;> simp only [hf] at h
    · exact Option.noConfusion h
    · cases h
      have hsub := childFold_deleted_sub pkg.name children _ s2 n2 hf
      exact ⟨fun x hx => hsub x (hkeep x hx), hsub pkg.name hself⟩

/-- The referrer loop never removes entries from the deleted set,
provided the recursive call does not. -/
theorem runReferrers_deleted_sub
    (rec : DeleterState → Pkg → Option (DeleterState × Nat × Nat))
    (hrec : ∀ s p r, rec s p = some r → ∀ x ∈ s.deleted, x ∈ r.1.deleted)
    (pfx : String) (ts : List String) :
    ∀ (s : DeleterState) (del multi : Nat) (out : DeleterState × Nat × Nat),
      runReferrers rec pfx s ts del multi = some out →
      ∀ x ∈ s.deleted, x ∈ out.1.deleted := by
  induction ts with
  | nil =>
    intro s del multi out h x hx
    unfold runReferrers at h
    cases h
    exact hx
  | cons t ts ih =>
    intro s del multi out h x hx
    unfold runReferrers at h
    by_cases hpre : strStartsWith t pfx = true
    · rw [if_pos hpre] at h
      rcases hmd : getDigestByTag s.index t with _ | md <;> simp only [hmd] at h
      · exact ih s del multi out h x hx
      · rcases hap : getPackageByDigest s.index md with _ | ap <;> simp only [hap] at h
        · exact ih s del multi out h x hx
        · rcases hr : rec s ap with _ | ⟨s1, d1, m1⟩ <;> simp only [hr] at h
          · exact Option.noConfusion h
          · exact ih s1 _ _ out h x (hrec s ap (s1, d1, m1) hr x hx)
    · rw [if_neg hpre] at h
      exact ih s del multi out h x hx

/-- A completed `deleteImage` run never removes entries from the
session deleted set. -/
theorem deleteImage_deleted_sub :
    ∀ (fuel : Nat) (s : DeleterState) (p : Pkg) (r : DeleterState × Nat × Nat),
      deleteImage fuel s p = some r → ∀ x ∈ s.deleted, x ∈ r.1.deleted := by
  intro fuel
  induction fuel with
  | zero => intro s p r h; exact Option.noConfusion h
  | succ f ih =>
    intro s p r h x hx
    unfold deleteImage at h
    by_cases hmem : p.name ∈ s.deleted
    · rw [if_pos hmem] at h
      cases h
      exact hx
    · rw [if_neg hmem] at h
      rcases hm : lookupManifest s.registry p.name with _ | manifest <;>
        simp only [hm] at h
      · exact Option.noConfusion h
      · rcases hc : childPhase p s manifest with _ | ⟨s2, del, multi⟩ <;>
          simp only [hc] at h
        · exact Option.noConfusion h
        · have hcp := childPhase_deleted_sub p s manifest (s2, del, multi) hc
          exact runReferrers_deleted_sub _ ih (referrerTagOf p.name)
            (getTags s2.index) s2 del multi r h x (hcp.1 x hx)

/-- After a completed `deleteImage`, the package's digest is in the
session deleted set. -/
theorem deleteImage_mem_deleted (fuel : Nat) (s : DeleterState) (p : Pkg)
    (r : DeleterState × Nat × Nat) (h : deleteImage fuel s p = some r) :
    p.name ∈ r.1.deleted := by
  cases fuel with
  | zero => exact Option.noConfusion h
  | succ f =>
    unfold deleteImage at h
    by_cases hmem : p.name ∈ s.deleted
    · rw [if_pos hmem] at h
      cases h
      exact hmem
    · rw [if_neg hmem] at h
      rcases hm : lookupManifest s.registry p.name with _ | manifest <;>
        simp only [hm] at h
      · exact Option.noConfusion h
      · rcases hc : childPhase p s manifest with _ | ⟨s2, del, multi⟩ <;>
          simp only [hc] at h
        · exact Option.noConfusion h
        · have hcp := childPhase_deleted_sub p s manifest (s2, del, multi) hc
          exact runReferrers_deleted_sub _
            (fun s' p' r' h' => deleteImage_deleted_sub f s' p' r' h')
            (referrerTagOf p.name) (getTags s2.index) s2 del multi r h
            p.name hcp.2

/-! ## Claim theorems: image deleter -/

/-- C1: inside `deleteImage` of an index-manifest parent `P`, a child
`c` that is present in the Package Index, not yet deleted and mapped in
the used-by map is deleted exactly when its used-by set is the
singleton containing `P`; otherwise `c` is skipped and `P` is removed
from used-by(`c`). Concretely, Scenario A (children used only by `P`)
deletes 3 packages with multi-arch count 1, and Scenario B (`C1` also
referenced by `Q`) deletes 2 packages with multi-arch count 1 and
leaves used-by(`C1`) = the set containing `Q`. -/
theorem claim1_child_deleted_iff_sole_parent :
    (∀ (pn : String) (s : DeleterState) (d : Descriptor) (mp : Pkg)
        (parents : List String) (lab : String),
      getPackageByDigest s.index d.digest = some mp →
      mp.name ∉ s.deleted →
      lookupUsedBy s.usedBy mp.name = some parents →
      buildLabel s.registry d = some lab →
      ((parents.length = 1 ∧ pn ∈ parents) →
        deleteChild pn s d =
          some ({ s with
                    events := s.events ++ [⟨mp.id, mp.name, [], some lab⟩],
                    deleted := s.deleted ++ [mp.name],
                    usedBy := eraseUsedByKey s.usedBy mp.name }, 1)) ∧
      (¬ (parents.length = 1 ∧ pn ∈ parents) →
        deleteChild pn s d =
          some ({ s with usedBy := removeParent s.usedBy mp.name pn }, 0))) ∧
    (deleteImage 2 stScnA pkgP).map (fun r => (r.2.1, r.2.2, r.1.deleted)) =
      some (3, 1, ["sha256:p", "sha256:c1", "sha256:c2"]) ∧
    (deleteImage 2 stScnB pkgP).map
        (fun r => (r.2.1, r.2.2, r.1.deleted,
          lookupUsedBy r.1.usedBy "sha256:c1")) =
      some (2, 1, ["sha256:p", "sha256:c2"], some ["sha256:q"]) := by
  refine ⟨?_, by decide, by decide⟩
  intro pn s d mp parents lab h1 h2 h3 h4
  constructor
  · intro hc
    unfold deleteChild
    simp only [h1, h3, if_neg h2, if_pos hc, h4]
  · intro hc
    unfold deleteChild
    simp only [h1, h3, if_neg h2, if_neg hc]

/-- Witness for C1: the deletion branch of the child step at Scenario
A's first child. -/
theorem claim1_witness :
    deleteChild "sha256:p" stScnA descC1 =
      some ({ stScnA with
                events := stScnA.events ++
                  [⟨2, "sha256:c1", [], some "architecture: amd64"⟩],
                deleted := stScnA.deleted ++ ["sha256:c1"],
                usedBy := eraseUsedByKey stScnA.usedBy "sha256:c1" }, 1) :=
  (claim1_child_deleted_iff_sole_parent.1 "sha256:p" stScnA descC1
    ⟨2, "sha256:c1", [], none⟩ ["sha256:p"] "architecture: amd64"
    (by decide) (by decide) (by decide) (by decide)).1 (by decide)

/-- C3 is false on the code: in the chain scenario (`P` lists `C`; `C`
is itself an index manifest listing `G` with used-by(`G`) = set
containing `C`; `A` is a referrer of `C`), deleting `P` deletes only
`P` and `C`: the grandchild `G` and the child's referrer `A` are not
processed, unlike what a recursive `deleteImage` call on `C` would do. -/
theorem claim3_counterexample :
    (deleteImage 9 stChain pkgPChain).map
        (fun r => (r.2.1, r.2.2, r.1.deleted)) =
      some (2, 1, ["sha256:p", "sha256:c"]) ∧
    "sha256:g" ∉ (["sha256:p", "sha256:c"] : List String) ∧
    "sha256:a" ∉ (["sha256:p", "sha256:c"] : List String) := by
  refine ⟨by decide, by decide, by decide⟩

/-- C3 amended: when `deleteImage` deletes a child whose only remaining
parent is the parent being deleted, the child is deleted *directly* —
a single `deletePackageVersion` call with an empty tag list and a label
— and the child deletion does not recurse: it adds at most the child
itself to the deleted set and at most that one event to the log, so the
child's own index-manifest children and referrer tags are not
processed. Concretely, the chain scenario deletes only `P` and `C`. -/
theorem claim3_child_deletion_is_direct :
    (∀ (pn : String) (s : DeleterState) (d : Descriptor)
        (s' : DeleterState) (n : Nat),
      deleteChild pn s d = some (s', n) →
      (s'.deleted = s.deleted ∧ s'.events = s.events ∧ s'.index = s.index ∧
        n = 0) ∨
      (∃ mp lab, getPackageByDigest s.index d.digest = some mp ∧
        s'.deleted = s.deleted ++ [mp.name] ∧
        s'.events = s.events ++ [⟨mp.id, mp.name, [], some lab⟩] ∧
        s'.index = s.index ∧ n = 1)) ∧
    (deleteImage 9 stChain pkgPChain).map
        (fun r => (r.2.1, r.2.2, r.1.deleted)) =
      some (2, 1, ["sha256:p", "sha256:c"]) := by
  exact ⟨fun pn s d s' n h => deleteChild_shape pn s d s' n h, by decide⟩

/-- Witness for C3 (amended): the child step on the chain scenario's
child lands in the direct-deletion branch. -/
theorem claim3_witness :
    (({ stChain with
          events := stChain.events ++
            [⟨2, "sha256:c", [], some "architecture: amd64"⟩],
          deleted := stChain.deleted ++ ["sha256:c"],
          usedBy := eraseUsedByKey stChain.usedBy "sha256:c" } :
        DeleterState).deleted = stChain.deleted ∧
      ({ stChain with
          events := stChain.events ++
            [⟨2, "sha256:c", [], some "architecture: amd64"⟩],
          deleted := stChain.deleted ++ ["sha256:c"],
          usedBy := eraseUsedByKey stChain.usedBy "sha256:c" } :
        DeleterState).events = stChain.events ∧
      ({ stChain with
          events := stChain.events ++
            [⟨2, "sha256:c", [], some "architecture: amd64"⟩],
          deleted := stChain.deleted ++ ["sha256:c"],
          usedBy := eraseUsedByKey stChain.usedBy "sha256:c" } :
        DeleterState).index = stChain.index ∧ (1 : Nat) = 0) ∨
    (∃ mp lab,
      getPackageByDigest stChain.index "sha256:c" = some mp ∧
      ({ stChain with
          events := stChain.events ++
            [⟨2, "sha256:c", [], some "architecture: amd64"⟩],
          deleted := stChain.deleted ++ ["sha256:c"],
          usedBy := eraseUsedByKey stChain.usedBy "sha256:c" } :
        DeleterState).deleted = stChain.deleted ++ [mp.name] ∧
      ({ stChain with
          events := stChain.events ++
            [⟨2, "sha256:c", [], some "architecture: amd64"⟩],
          deleted := stChain.deleted ++ ["sha256:c"],
          usedBy := eraseUsedByKey stChain.usedBy "sha256:c" } :
        DeleterState).events =
          stChain.events ++ [⟨mp.id, mp.name, [], some lab⟩] ∧
      ({ stChain with
          events := stChain.events ++
            [⟨2, "sha256:c", [], some "architecture: amd64"⟩],
          deleted := stChain.deleted ++ ["sha256:c"],
          usedBy := eraseUsedByKey stChain.usedBy "sha256:c" } :
        DeleterState).index = stChain.index ∧ (1 : Nat) = 1) :=
  claim3_child_deletion_is_direct.1 "sha256:p" stChain
    ⟨"sha256:c", some ⟨some "amd64", none⟩, none⟩
    { stChain with
        events := stChain.events ++
          [⟨2, "sha256:c", [], some "architecture: amd64"⟩],
        deleted := stChain.deleted ++ ["sha256:c"],
        usedBy := eraseUsedByKey stChain.usedBy "sha256:c" } 1 (by decide)

/-- C4: `deleteImage` is idempotent within a session: after any
completed `deleteImage` call on a package, calling it again on the
resulting state performs no deletion and returns zero counts with the
state unchanged. -/
theorem claim4_idempotent_reentry (f g : Nat) (s : DeleterState) (p : Pkg)
    (s1 : DeleterState) (d m : Nat) (h : deleteImage f s p = some (s1, d, m)) :
    deleteImage (g + 1) s1 p = some (s1, 0, 0) := by
  have hmem : p.name ∈ s1.deleted :=
    deleteImage_mem_deleted f s p (s1, d, m) h
  unfold deleteImage
  rw [if_pos hmem]

/-- Witness for C4: re-deleting `stOne`'s package reports zero. -/
theorem claim4_witness : deleteImage 2 stOneDone pkgX = some (stOneDone, 0, 0) :=
  claim4_idempotent_reentry 1 1 stOne pkgX stOneDone 1 0 (by decide)

/-! ## Lemmas about the manifest analyzer -/

/-- Inserting under a key absent from the map appends a fresh
singleton entry. -/
theorem addOp_fresh (ops : List (String × List String)) (md tag : String)
    (h : ∀ e ∈ ops, e.1 ≠ md) : addOp ops md tag = ops ++ [(md, [tag])] := by
  have hfalse : (ops.any (fun e => e.1 = md)) = false := by
    rw [List.any_eq_false]
    intro e he
    simpa using h e he
  simp [addOp, hfalse]

/-- The child scan of one parent in `loadDigestUsedByMap` preserves the
analyzer invariant: the live set stays duplicate-free, every used-by
entry stays a singleton, and recorded children are no longer live. -/
theorem recordChildren_inv (parent : String) (children : List Descriptor) :
    ∀ (live : List String) (acc : List (String × List String)),
      live.Nodup →
      (∀ e ∈ acc, ∃ p, e.2 = [p]) →
      (∀ e ∈ acc, e.1 ∉ live) →
      (recordChildren parent children live acc).1.Nodup ∧
      (∀ e ∈ (recordChildren parent children live acc).2, ∃ p, e.2 = [p]) ∧
      (∀ e ∈ (recordChildren parent children live acc).2,
        e.1 ∉ (recordChildren parent children live acc).1) := by
  induction children with
  | nil =>
    intro live acc h1 h2 h3
    exact ⟨h1, h2, h3⟩
  | cons c cs ih =>
    intro live acc h1 h2 h3
    unfold recordChildren at ih ⊢
    rw [List.foldl_cons]
    by_cases hin : c.digest ∈ live
    · rw [if_pos hin]
      have hfresh : ∀ e ∈ acc, e.1 ≠ c.digest := by
        intro e he hEq
        exact h3 e he (hEq ▸ hin)
      rw [addOp_fresh acc c.digest parent hfresh]
      refine ih (live.erase c.digest) (acc ++ [(c.digest, [parent])])
        (h1.erase c.digest) ?_ ?_
      · intro e he
        rcases List.mem_append.mp he with h | h
        · exact h2 e h
        · rcases List.mem_singleton.mp h with rfl
          exact ⟨parent, rfl⟩
      · intro e he hmem
        rcases List.mem_append.mp he with h | h
        · exact h3 e h (List.mem_of_mem_erase hmem)
        · rcases List.mem_singleton.mp h with rfl
          exact ((List.Nodup.mem_erase_iff h1).mp hmem).1 rfl
    · rw [if_neg hin]
      exact ih live acc h1 h2 h3

/-- Every used-by set produced by the analyzer iteration is a
singleton. -/
theorem loadUsedByGo_singleton (reg : Registry) (order : List String) :
    ∀ (live : List String) (acc m : List (String × List String)),
      live.Nodup →
      (∀ e ∈ acc, ∃ p, e.2 = [p]) →
      (∀ e ∈ acc, e.1 ∉ live) →
      loadUsedByGo reg order live acc = some m →
      ∀ e ∈ m, ∃ p, e.2 = [p] := by
  induction order with
  | nil =>
    intro live acc m _ h2 _ h
    unfold loadUsedByGo at h
    cases h
    exact h2
  | cons d rest ih =>
    intro live acc m h1 h2 h3 h
    unfold loadUsedByGo at h
    by_cases hd : d ∈ live
    · rw [if_pos hd] at h
      rcases hm : lookupManifest reg d with _ | mf <;> simp only [hm] at h
      · exact Option.noConfusion h
      · rcases hmm : mf.manifests with _ | children <;> simp only [hmm] at h
        · exact ih live acc m h1 h2 h3 h
        · have hinv := recordChildren_inv d children live acc h1 h2 h3
          exact ih _ _ m hinv.1 hinv.2.1 hinv.2.2 h
    · rw [if_neg hd] at h
      exact ih live acc m h1 h2 h3 h

/-! ## Claim theorems: manifest analyzer -/

/-- C2 is false on the code: with parents `P1` and `P2` both listing
child `C` (all three in the Package Index), the returned map records
only `P1` — the first processed parent — in used-by(`C`); `P2` is
absent because the child was removed from the digest set before `P2`'s
manifest was scanned. -/
theorem claim2_counterexample :
    (loadDigestUsedByMap regTwoParents idxTwoParents).map
        (fun m => lookupUsedBy m "sha256:c") = some (some ["sha256:p1"]) ∧
    "sha256:p2" ∉ (["sha256:p1"] : List String) :=
  ⟨by decide, by decide⟩

/-- C2 amended: `loadDigestUsedByMap` records, for each child, only the
first parent (in iteration order) that processes it: every used-by set
in the returned map is a singleton, and when two distinct parents both
list the same child only the earlier-processed one appears — concretely
used-by(`C`) = the set containing `P1` alone in the two-parents
scenario. -/
theorem claim2_first_parent_only :
    (∀ (reg : Registry) (index : List Pkg) (m : List (String × List String)),
      (index.map (fun p => p.name)).Nodup →
      loadDigestUsedByMap reg index = some m →
      ∀ e ∈ m, ∃ p, e.2 = [p]) ∧
    (loadDigestUsedByMap regTwoParents idxTwoParents).map
        (fun m => lookupUsedBy m "sha256:c") = some (some ["sha256:p1"]) := by
  refine ⟨?_, by decide⟩
  intro reg index m hnd h
  unfold loadDigestUsedByMap at h
  exact loadUsedByGo_singleton reg (index.map (fun p => p.name))
    (index.map (fun p => p.name)) [] m hnd
    (fun e he => absurd he (List.not_mem_nil e))
    (fun e he => absurd he (List.not_mem_nil e)) h

/-- Witness for C2 (amended): the two-parents scenario's map is the
singleton entry for `C`, and the theorem yields its singleton shape. -/
theorem claim2_witness :
    loadDigestUsedByMap regTwoParents idxTwoParents =
      some [("sha256:c", ["sha256:p1"])] ∧
    ∃ p, (["sha256:p1"] : List String) = [p] :=
  ⟨by decide,
   claim2_first_parent_only.1 regTwoParents idxTwoParents
     [("sha256:c", ["sha256:p1"])] (by decide) (by decide)
     ("sha256:c", ["sha256:p1"]) (by decide)⟩

/-! ## Lemmas about the image validator -/

/-- A per-digest ghost check yields either nothing or the digest
itself. -/
theorem ghostFlag_shape (reg : Registry) (index : List Pkg) (d : String)
    (l : List String) (h : ghostFlag reg index d = some l) :
    l = [] ∨ l = [d] := by
  unfold ghostFlag at h
  rcases hm : lookupManifest reg d with _ | m <;> simp only [hm] at h
  · exact Option.noConfusion h
  · rcases hc : m.manifests with _ | children <;> simp only [hc] at h
    · cases h; exact Or.inl rfl
    · by_cases hcnt : children.countP
          (fun c => (getIdByDigest index c.digest).isNone) = children.length
      · rw [if_pos hcnt] at h
        rcases hp : getPackageByDigest index d with _ | pk <;>
          simp only [hp] at h
        · exact Option.noConfusion h
        · cases h; exact Or.inr rfl
      · rw [if_neg hcnt] at h
        cases h; exact Or.inl rfl

/-- A digest flagged as a ghost whose index manifest has a nonempty
child list is also flagged by the per-digest partial check. -/
theorem ghostFlag_implies_partialFlag (reg : Registry) (index : List Pkg)
    (d : String) (m : Manifest) (children : List Descriptor)
    (hlm : lookupManifest reg d = some m)
    (hch : m.manifests = some children) (hne : children ≠ [])
    (hg : ghostFlag reg index d = some [d]) :
    partialFlag reg index d = some [d] := by
  unfold ghostFlag at hg
  simp only [hlm, hch] at hg
  unfold partialFlag
  simp only [hlm, hch]
  by_cases hcnt : children.countP
      (fun c => (getIdByDigest index c.digest).isNone) = children.length
  · have hany : children.any
        (fun c => (getIdByDigest index c.digest).isNone) = true := by
      rcases hchl : children with _ | ⟨c0, cs⟩
      · exact absurd hchl hne
      · have hall := List.countP_eq_length.mp (hchl ▸ hcnt)
        rw [List.any_eq_true]
        exact ⟨c0, List.mem_cons_self c0 cs, hall c0 (List.mem_cons_self c0 cs)⟩
    rw [if_pos hcnt] at hg
    rw [hany]
    simp only [if_true]
    rcases hp : getPackageByDigest index d with _ | pk <;>
      simp only [hp] at hg ⊢
    exact Option.noConfusion hg
  · rw [if_neg hcnt] at hg
    simp at hg

/-- Inversion of one step of `findGhostImages`. -/
theorem findGhost_cons (reg : Registry) (index : List Pkg) (d0 : String)
    (rest : List String) (r : List String)
    (h : findGhostImages reg index (d0 :: rest) = some r) :
    ∃ h0 t, ghostFlag reg index d0 = some h0 ∧
      findGhostImages reg index rest = some t ∧ r = h0 ++ t := by
  unfold findGhostImages at h
  rcases hg : ghostFlag reg index d0 with _ | h0 <;> simp only [hg] at h
  · exact Option.noConfusion h
  · rcases ht : findGhostImages reg index rest with _ | t <;>
      simp only [ht] at h
    · exact Option.noConfusion h
    · cases h
      exact ⟨h0, t, rfl, rfl, rfl⟩

/-- Inversion of one step of `findPartialImages`. -/
theorem findPartial_cons (reg : Registry) (index : List Pkg) (d0 : String)
    (rest : List String) (r : List String)
    (h : findPartialImages reg index (d0 :: rest) = some r) :
    ∃ h0 t, partialFlag reg index d0 = some h0 ∧
      findPartialImages reg index rest = some t ∧ r = h0 ++ t := by
  unfold findPartialImages at h
  rcases hg : partialFlag reg index d0 with _ | h0 <;> simp only [hg] at h
  · exact Option.noConfusion h
  · rcases ht : findPartialImages reg index rest with _ | t <;>
      simp only [ht] at h
    · exact Option.noConfusion h
    · cases h
      exact ⟨h0, t, rfl, rfl, rfl⟩

/-- Every ghost with a nonempty child list is also reported by the
partial-image scan of the same candidate set. -/
theorem ghost_mem_partial (reg : Registry) (index : List Pkg)
    (fs : List String) :
    ∀ (gs ps : List String) (d : String) (m : Manifest)
      (children : List Descriptor),
      findGhostImages reg index fs = some gs →
      findPartialImages reg index fs = some ps →
      d ∈ gs →
      lookupManifest reg d = some m →
      m.manifests = some children → children ≠ [] →
      d ∈ ps := by
  induction fs with
  | nil =>
    intro gs ps d m children hg hp hd _ _ _
    unfold findGhostImages at hg
    cases hg
    exact absurd hd (List.not_mem_nil d)
  | cons d0 rest ih =>
    intro gs ps d m children hg hp hd hlm hch hne
    obtain ⟨g0, gt, hg0, hgt, rfl⟩ := findGhost_cons reg index d0 rest gs hg
    obtain ⟨p0, pt, hp0, hpt, rfl⟩ := findPartial_cons reg index d0 rest ps hp
    rcases List.mem_append.mp hd with hmem | hmem
    · rcases ghostFlag_shape reg index d0 g0 hg0 with rfl | rfl
      · exact absurd hmem (List.not_mem_nil d)
      · rcases List.mem_singleton.mp hmem with rfl
        have := ghostFlag_implies_partialFlag reg index d m children
          hlm hch hne hg0
        rw [this] at hp0
        cases hp0
        exact List.mem_append_left _ (List.mem_singleton.mpr rfl)
    · exact List.mem_append_right _
        (ih gt pt d m children hgt hpt hmem hlm hch hne)

/-! ## Claim theorems: image validator -/

/-- C9 is false on the code: for the candidate set containing `ghost1`,
whose manifest lists two children neither of which is present,
`findPartialImages` returns the set containing `ghost1` — not the empty
set — so its result is not disjoint from `findGhostImages`. -/
theorem claim9_counterexample :
    findGhostImages regGhost idxGhost ["ghost1"] = some ["ghost1"] ∧
    findPartialImages regGhost idxGhost ["ghost1"] = some ["ghost1"] ∧
    some ["ghost1"] ≠ some ([] : List String) :=
  ⟨by decide, by decide, by decide⟩

/-- C9 amended: `findPartialImages` flags a digest when at least one
child of its index manifest is absent from the Package Index — possibly
all of them — so on any candidate set its result contains every ghost
whose child list is nonempty; in Scenario D both scans return the set
containing `ghost1`. -/
theorem claim9_partial_includes_ghosts :
    (∀ (reg : Registry) (index : List Pkg) (fs gs ps : List String)
        (d : String) (m : Manifest) (children : List Descriptor),
      findGhostImages reg index fs = some gs →
      findPartialImages reg index fs = some ps →
      d ∈ gs →
      lookupManifest reg d = some m →
      m.manifests = some children → children ≠ [] →
      d ∈ ps) ∧
    findGhostImages regGhost idxGhost ["ghost1"] = some ["ghost1"] ∧
    findPartialImages regGhost idxGhost ["ghost1"] = some ["ghost1"] := by
  exact ⟨fun reg index fs gs ps d m children hg hp hd hlm hch hne =>
    ghost_mem_partial reg index fs gs ps d m children hg hp hd hlm hch hne,
    by decide, by decide⟩

/-- Witness for C9 (amended): `ghost1` is in the partial scan result of
Scenario D. -/
theorem claim9_witness : "ghost1" ∈ (["ghost1"] : List String) :=
  claim9_partial_includes_ghosts.1 regGhost idxGhost ["ghost1"] ["ghost1"]
    ["ghost1"] "ghost1"
    { manifests := some [⟨"sha256:m1", none, none⟩, ⟨"sha256:m2", none, none⟩] }
    [⟨"sha256:m1", none, none⟩, ⟨"sha256:m2", none, none⟩]
    (by decide) (by decide) (by decide) (by decide) (by decide) (by decide)

/-! ## Lemmas about the image filter -/

/-- With no `older-than` configured the age filter is the identity. -/
theorem applyAgeFilter_none_noop (now : Int) (index : List Pkg)
    (fs : List String) : applyAgeFilter none now index fs = some fs := by
  cases fs <;> rfl

/-- A candidate whose package has no `updated_at` survives the age
filter. -/
theorem applyAgeFilter_keeps (now : Int) (index : List Pkg) (dur : Int) :
    ∀ (fs res : List String) (d : String) (p : Pkg),
      applyAgeFilter (some dur) now index fs = some res →
      d ∈ fs → getPackageByDigest index d = some p → p.updatedAt = none →
      d ∈ res := by
  intro fs
  induction fs with
  | nil =>
    intro res d p _ hd
    exact absurd hd (List.not_mem_nil d)
  | cons d0 rest ih =>
    intro res d p h hd hp hts
    unfold applyAgeFilter at h
    rcases hp0 : getPackageByDigest index d0 with _ | p0 <;>
      simp only [hp0] at h
    · exact Option.noConfusion h
    · rcases htl : applyAgeFilter (some dur) now index rest with _ | tail <;>
        simp only [htl] at h
      · exact Option.noConfusion h
      · rcases List.mem_cons.mp hd with rfl | hmem
        · have hpp : p0 = p := by
            rw [hp0] at hp
            exact Option.some.inj hp
          subst hpp
          simp only [hts] at h
          cases h
          exact List.mem_cons_self d tail
        · have hdtail : d ∈ tail := ih tail d p htl hmem hp hts
          rcases hupd : p0.updatedAt with _ | ts0 <;> simp only [hupd] at h
          · cases h
            exact List.mem_cons_of_mem d0 hdtail
          · by_cases hc : ts0 ≥ now - dur
            · rw [if_pos hc] at h
              cases h
              exact hdtail
            · rw [if_neg hc] at h
              cases h
              exact List.mem_cons_of_mem d0 hdtail

/-- A candidate whose package was updated at or after the cutoff is
removed by the age filter. -/
theorem applyAgeFilter_removes (now : Int) (index : List Pkg) (dur : Int) :
    ∀ (fs res : List String) (d : String) (p : Pkg) (ts : Int),
      applyAgeFilter (some dur) now index fs = some res →
      getPackageByDigest index d = some p → p.updatedAt = some ts →
      ts ≥ now - dur → d ∉ res := by
  intro fs
  induction fs with
  | nil =>
    intro res d p ts h _ _ _
    unfold applyAgeFilter at h
    cases h
    exact List.not_mem_nil d
  | cons d0 rest ih =>
    intro res d p ts h hp hts hge hdres
    unfold applyAgeFilter at h
    rcases hp0 : getPackageByDigest index d0 with _ | p0 <;>
      simp only [hp0] at h
    · exact Option.noConfusion h
    · rcases htl : applyAgeFilter (some dur) now index rest with _ | tail <;>
        simp only [htl] at h
      · exact Option.noConfusion h
      · by_cases hdd : d = d0
        · subst hdd
          have hpp : p0 = p := by
            rw [hp0] at hp
            exact Option.some.inj hp
          subst hpp
          simp only [hts] at h
          rw [if_pos hge] at h
          cases h
          exact ih res d p0 ts htl hp hts hge hdres
        · have hdtail : d ∈ tail := by
            rcases hupd : p0.updatedAt with _ | ts0 <;> simp only [hupd] at h
            · cases h
              rcases List.mem_cons.mp hdres with h' | h'
              · exact absurd h' hdd
              · exact h'
            · by_cases hc : ts0 ≥ now - dur
              · rw [if_pos hc] at h
                cases h
                exact hdres
              · rw [if_neg hc] at h
                cases h
                rcases List.mem_cons.mp hdres with h' | h'
                · exact absurd h' hdd
                · exact h'
          exact ih tail d p ts htl hp hts hge hdtail

/-- C10: the age filter keeps every candidate whose package record has
no `updated_at` (only packages with a timestamp can be removed), and
removes a candidate whose `updated_at` equals the cutoff `now −
olderThan` exactly. -/
theorem claim10_age_filter_boundary :
    ∀ (olderThan : Option Int) (now : Int) (index : List Pkg)
      (fs res : List String) (d : String) (p : Pkg),
      applyAgeFilter olderThan now index fs = some res →
      d ∈ fs → getPackageByDigest index d = some p →
      ((p.updatedAt = none → d ∈ res) ∧
       (∀ dur, olderThan = some dur → p.updatedAt = some (now - dur) →
         d ∉ res)) := by
  intro ot now index fs res d p h hd hp
  constructor
  · intro hts
    rcases ot with _ | dur
    · rw [applyAgeFilter_none_noop] at h
      cases h
      exact hd
    · exact applyAgeFilter_keeps now index dur fs res d p h hd hp hts
  · intro dur hot hts
    subst hot
    exact applyAgeFilter_removes now index dur fs res d p (now - dur) h hp hts
      (le_refl _)

/-- Witness for C10: in `idxAge` with cutoff 500 at time 1000, the
timestamp-less `d1` survives and `d2` (updated exactly at 500) is
removed. -/
theorem claim10_witness :
    "d1" ∈ (["d1"] : List String) ∧ "d2" ∉ (["d1"] : List String) :=
  ⟨(claim10_age_filter_boundary (some 500) 1000 idxAge ["d1", "d2"] ["d1"]
      "d1" ⟨1, "d1", [], none⟩ (by decide) (by decide) (by decide)).1 (by decide),
   (claim10_age_filter_boundary (some 500) 1000 idxAge ["d1", "d2"] ["d1"]
      "d2" ⟨2, "d2", [], some 500⟩ (by decide) (by decide) (by decide)).2 500
     rfl (by decide)⟩

/-! ## Lemmas about the untagging phase -/

/-- One untagging step preserves the trace invariants: every manifest
write was issued while the target package was observed with at least
two tags, and every deletion passes exactly the one migrated tag. -/
theorem untagOne_trace_ok (st st' : UntagState) (md tag : String)
    (hput : ∀ t m b obs, UEvent.put t m b obs ∈ st.events → obs.length > 1)
    (hdel : ∀ i dg tags ft, UEvent.del i dg tags ft ∈ st.events → tags = [ft])
    (h : untagOne st md tag = some st') :
    (∀ t m b obs, UEvent.put t m b obs ∈ st'.events → obs.length > 1) ∧
    (∀ i dg tags ft, UEvent.del i dg tags ft ∈ st'.events → tags = [ft]) := by
  unfold untagOne at h
  rcases hp : getPackageByDigest st.snapshot md with _ | gh <;>
    simp only [hp] at h
  · exact Option.noConfusion h
  · by_cases htags : gh.tags.length > 1
    · rw [if_pos htags] at h
      rcases hm : lookupManifest st.world.registry md with _ | manifest <;>
        simp only [hm] at h
      · exact Option.noConfusion h
      · split at h
        · cases h
          constructor
          · intro t m b obs hmem
            rcases List.mem_append.mp hmem with hold | hnew
            · exact hput t m b obs hold
            · cases List.mem_singleton.mp hnew
              exact htags
          · intro i dg tags ft hmem
            rcases List.mem_append.mp hmem with hold | hnew
            · exact hdel i dg tags ft hold
            · cases List.mem_singleton.mp hnew
        · split at h
          · cases h
            constructor
            · intro t m b obs hmem
              rcases List.mem_append.mp hmem with hold | hnew
              · exact hput t m b obs hold
              · cases List.mem_singleton.mp hnew
                exact htags
            · intro i dg tags ft hmem
              rcases List.mem_append.mp hmem with hold | hnew
              · exact hdel i dg tags ft hold
              · cases List.mem_singleton.mp hnew
          · cases h
            constructor
            · intro t m b obs hmem
              rcases List.mem_append.mp hmem with hold | hnew
              · rcases List.mem_append.mp hold with hold2 | hnew2
                · exact hput t m b obs hold2
                · cases List.mem_singleton.mp hnew2
                  exact htags
              · cases List.mem_singleton.mp hnew
            · intro i dg tags ft hmem
              rcases List.mem_append.mp hmem with hold | hnew
              · rcases List.mem_append.mp hold with hold2 | hnew2
                · exact hdel i dg tags ft hold2
                · cases List.mem_singleton.mp hnew2
              · cases List.mem_singleton.mp hnew
                rfl
    · rw [if_neg htags] at h
      cases h
      exact ⟨hput, hdel⟩

/-- The inner tag loop preserves the trace invariants. -/
theorem untagTags_trace_ok (md : String) (tags : List String) :
    ∀ (st st' : UntagState),
      (∀ t m b obs, UEvent.put t m b obs ∈ st.events → obs.length > 1) →
      (∀ i dg ts ft, UEvent.del i dg ts ft ∈ st.events → ts = [ft]) →
      untagTags md st tags = some st' →
      (∀ t m b obs, UEvent.put t m b obs ∈ st'.events → obs.length > 1) ∧
      (∀ i dg ts ft, UEvent.del i dg ts ft ∈ st'.events → ts = [ft]) := by
  induction tags with
  | nil =>
    intro st st' hput hdel h
    unfold untagTags at h
    cases h
    exact ⟨hput, hdel⟩
  | cons tag rest ih =>
    intro st st' hput hdel h
    unfold untagTags at h
    rcases h1 : untagOne st md tag with _ | st1 <;> simp only [h1] at h
    · exact Option.noConfusion h
    · have := untagOne_trace_ok st st1 md tag hput hdel h1
      exact ih st1 st' this.1 this.2 h

/-- The outer entry loop preserves the trace invariants. -/
theorem untagEntries_trace_ok (ops : List (String × List String)) :
    ∀ (st st' : UntagState),
      (∀ t m b obs, UEvent.put t m b obs ∈ st.events → obs.length > 1) →
      (∀ i dg ts ft, UEvent.del i dg ts ft ∈ st.events → ts = [ft]) →
      untagEntries st ops = some st' →
      (∀ t m b obs, UEvent.put t m b obs ∈ st'.events → obs.length > 1) ∧
      (∀ i dg ts ft, UEvent.del i dg ts ft ∈ st'.events → ts = [ft]) := by
  induction ops with
  | nil =>
    intro st st' hput hdel h
    unfold untagEntries at h
    cases h
    exact ⟨hput, hdel⟩
  | cons e rest ih =>
    intro st st' hput hdel h
    unfold untagEntries at h
    rcases h1 : untagTags e.1 st e.2 with _ | st1 <;> simp only [h1] at h
    · exact Option.noConfusion h
    · have := untagTags_trace_ok e.1 e.2 st st1 hput hdel h1
      exact ih st1 st' this.1 this.2 h

/-- A completed `performUntagging` run satisfies the trace invariants
when started with an empty trace. -/
theorem performUntagging_trace_ok (ops : List (String × List String))
    (st st' : UntagState) (b : Bool) (hev : st.events = [])
    (h : performUntagging ops st = some (st', b)) :
    (∀ t m bi obs, UEvent.put t m bi obs ∈ st'.events → obs.length > 1) ∧
    (∀ i dg ts ft, UEvent.del i dg ts ft ∈ st'.events → ts = [ft]) := by
  have hput : ∀ t m bi obs, UEvent.put t m bi obs ∈ st.events →
      obs.length > 1 := by
    intro t m bi obs hmem
    rw [hev] at hmem
    exact absurd hmem (List.not_mem_nil _)
  have hdel : ∀ i dg ts ft, UEvent.del i dg ts ft ∈ st.events →
      ts = [ft] := by
    intro i dg ts ft hmem
    rw [hev] at hmem
    exact absurd hmem (List.not_mem_nil _)
  unfold performUntagging at h
  by_cases hops : ops = []
  · rw [if_pos hops] at h
    cases h
    exact ⟨hput, hdel⟩
  · rw [if_neg hops] at h
    rcases he : untagEntries st ops with _ | st2 <;> simp only [he] at h
    · exact Option.noConfusion h
    · cases h
      exact untagEntries_trace_ok ops st st' hput hdel he

/-! ## Claim theorems: untagging -/

/-- C5 is false on the code: in the untagging scenario the deletion of
the newly created empty-manifest package is issued with the tag list
`[v1]` — the one migrated tag — not an empty tag list. -/
theorem claim5_counterexample :
    (performUntagging opsUntag stUntag).map (fun r => delTagArgs r.1.events) =
      some [(["v1"], "v1")] ∧
    (["v1"] : List String) ≠ [] :=
  ⟨by decide, by decide⟩

/-- C5 amended: for every tag whose empty replacement manifest was
written, `performUntagging` re-snapshots the Package Index, locates the
newly created empty-manifest package by that tag and deletes that
package version passing the single migrated tag `[tag]` (a one-element
list, not an empty one) to `deletePackageVersion`; concretely the
scenario trace writes the empty manifest under `v1`, the re-snapshot
holds the minted package, and the deletion targets the minted digest
with tags `[v1]`. -/
theorem claim5_delete_passes_migrated_tag :
    (∀ (ops : List (String × List String)) (st st' : UntagState) (b : Bool),
      st.events = [] → performUntagging ops st = some (st', b) →
      ∀ i dg ts ft, UEvent.del i dg ts ft ∈ st'.events → ts = [ft]) ∧
    performUntagging opsUntag stUntag = some (stUntagDone, true) := by
  exact ⟨fun ops st st' b hev h =>
    (performUntagging_trace_ok ops st st' b hev h).2, by decide⟩

/-- Witness for C5 (amended): the deletion event of the untagging
scenario carries exactly the migrated tag. -/
theorem claim5_witness :
    UEvent.del 10 "sha256:minted10" ["v1"] "v1" ∈ stUntagDone.events ∧
    (["v1"] : List String) = ["v1"] :=
  ⟨by decide,
   claim5_delete_passes_migrated_tag.1 opsUntag stUntag stUntagDone true rfl
     (by decide) 10 "sha256:minted10" ["v1"] "v1" (by decide)⟩

/-- C6 is false on the code: for the non-empty untag-operations map
whose only target currently has one tag, `performUntagging` issues no
write (the state, including the mutation trace, is unchanged) yet
returns `true`. -/
theorem claim6_counterexample :
    performUntagging [("sha256:d1", ["v1"])] stSingle = some (stSingle, true) ∧
    stSingle.events = [] ∧ (true : Bool) ≠ false :=
  ⟨by decide, by decide, by decide⟩

/-- C6 amended: the Boolean result of `performUntagging` reports only
whether the untag-operations map was non-empty, not whether any write
was issued. -/
theorem claim6_true_iff_nonempty (ops : List (String × List String))
    (st st' : UntagState) (b : Bool)
    (h : performUntagging ops st = some (st', b)) : b = true ↔ ops ≠ [] := by
  unfold performUntagging at h
  by_cases hops : ops = []
  · rw [if_pos hops] at h
    cases h
    simp [hops]
  · rw [if_neg hops] at h
    rcases he : untagEntries st ops with _ | st2 <;> simp only [he] at h
    · exact Option.noConfusion h
    · cases h
      simp [hops]

/-- Witness for C6 (amended): the single-tag scenario returns `true`
because its operations map is non-empty. -/
theorem claim6_witness :
    (true = true ↔ ([("sha256:d1", ["v1"])] : List (String × List String)) ≠ []) :=
  claim6_true_iff_nonempty [("sha256:d1", ["v1"])] stSingle stSingle true
    (by decide)

/-- C7: `performUntagging` never issues a manifest write for a tag
whose target package is observed with at most one tag: every `put` in
the trace of a run started with an empty trace records an observed tag
list of length at least two. -/
theorem claim7_write_only_when_multi_tagged
    (ops : List (String × List String)) (st st' : UntagState) (b : Bool)
    (hev : st.events = []) (h : performUntagging ops st = some (st', b)) :
    ∀ t m bi obs, UEvent.put t m bi obs ∈ st'.events → obs.length > 1 :=
  (performUntagging_trace_ok ops st st' b hev h).1

/-- Witness for C7: the write of the untagging scenario observed the
two tags `v1` and `latest`. -/
theorem claim7_witness :
    UEvent.put "v1" { manifests := some [] } true ["v1", "latest"] ∈
      stUntagDone.events ∧
    (["v1", "latest"] : List String).length > 1 :=
  ⟨by decide,
   claim7_write_only_when_multi_tagged opsUntag stUntag stUntagDone true rfl
     (by decide) "v1" { manifests := some [] } true ["v1", "latest"]
     (by decide)⟩

/-! ## Lemmas about the deletion strategy -/

/-- Set insertion preserves membership. -/
theorem setInsert_mem (l : List String) (x y : String) (h : y ∈ l) :
    y ∈ setInsert l x := by
  unfold setInsert
  split
  · exact h
  · exact List.mem_append_left _ h

/-- Set insertion inserts. -/
theorem setInsert_self (l : List String) (x : String) : x ∈ setInsert l x := by
  by_cases h : x ∈ l
  · rw [setInsert, if_pos h]
    exact h
  · rw [setInsert, if_neg h]
    exact List.mem_append_right _ (List.mem_singleton.mpr rfl)

/-- `addOp` preserves recorded digest/tag pairs. -/
theorem opsContains_addOp (ops : List (String × List String))
    (md tag d t : String) (h : opsContains ops d t) :
    opsContains (addOp ops md tag) d t := by
  obtain ⟨e, he, h1, h2⟩ := h
  unfold addOp
  split
  · by_cases hc : e.1 = md
    · exact ⟨(e.1, e.2 ++ [tag]), List.mem_map.mpr ⟨e, he, by rw [if_pos hc]⟩,
        h1, List.mem_append_left _ h2⟩
    · exact ⟨e, List.mem_map.mpr ⟨e, he, by rw [if_neg hc]⟩, h1, h2⟩
  · exact ⟨e, List.mem_append_left _ he, h1, h2⟩

/-- `addOp` records its digest/tag pair. -/
theorem opsContains_addOp_self (ops : List (String × List String))
    (md tag : String) : opsContains (addOp ops md tag) md tag := by
  unfold addOp
  split
  · rename_i hany
    rw [List.any_eq_true] at hany
    obtain ⟨e, he, hc⟩ := hany
    have hc' : e.1 = md := by simpa using hc
    exact ⟨(e.1, e.2 ++ [tag]), List.mem_map.mpr ⟨e, he, by rw [if_pos hc']⟩,
      hc', List.mem_append_right _ (List.mem_singleton.mpr rfl)⟩
  · exact ⟨(md, [tag]), List.mem_append_right _ (List.mem_singleton.mpr rfl),
      rfl, List.mem_singleton.mpr rfl⟩

/-- Inversion of one classification step: the remaining tags are
classified from accumulators that extend the current ones. -/
theorem classifyTags_cons_inv (index : List Pkg) (excl : List String)
    (tag0 : String) (rest std : List String)
    (ops : List (String × List String))
    (r : List String × List (String × List String))
    (h : classifyTags index excl (tag0 :: rest) std ops = some r) :
    ∃ std' ops', classifyTags index excl rest std' ops' = some r ∧
      (∀ d t, opsContains ops d t → opsContains ops' d t) ∧
      (∀ t, t ∈ std → t ∈ std') := by
  unfold classifyTags at h
  by_cases h1 : tag0 ∈ excl
  · rw [if_pos h1] at h
    exact ⟨std, ops, h, fun d t hc => hc, fun t ht => ht⟩
  · rw [if_neg h1] at h
    by_cases h2 : strStartsWith tag0 "sha256:" = true
    · rw [if_pos h2] at h
      exact ⟨setInsert std tag0, ops, h, fun d t hc => hc,
        fun t ht => setInsert_mem std tag0 t ht⟩
    · rw [if_neg h2] at h
      rcases h3 : getDigestByTag index tag0 with _ | md <;> simp only [h3] at h
      · exact ⟨std, ops, h, fun d t hc => hc, fun t ht => ht⟩
      · rcases h4 : getPackageByDigest index md with _ | gh <;>
          simp only [h4] at h
        · exact Option.noConfusion h
        · by_cases h5 : gh.tags.length > 1
          · rw [if_pos h5] at h
            exact ⟨std, addOp ops md tag0, h,
              fun d t hc => opsContains_addOp ops md tag0 d t hc,
              fun t ht => ht⟩
          · rw [if_neg h5] at h
            by_cases h6 : gh.tags.length = 1
            · rw [if_pos h6] at h
              exact ⟨setInsert std tag0, ops, h, fun d t hc => hc,
                fun t ht => setInsert_mem std tag0 t ht⟩
            · rw [if_neg h6] at h
              exact ⟨std, ops, h, fun d t hc => hc, fun t ht => ht⟩

/-- Pairs recorded in the untag-operations accumulator survive the
classification loop. -/
theorem classifyTags_ops_mono (index : List Pkg) (excl : List String)
    (l : List String) :
    ∀ (std : List String) (ops : List (String × List String))
      (r : List String × List (String × List String)) (d t : String),
      classifyTags index excl l std ops = some r →
      opsContains ops d t → opsContains r.2 d t := by
  induction l with
  | nil =>
    intro std ops r d t h hc
    unfold classifyTags at h
    cases h
    exact hc
  | cons tag0 rest ih =>
    intro std ops r d t h hc
    obtain ⟨std', ops', h', hops, _⟩ :=
      classifyTags_cons_inv index excl tag0 rest std ops r h
    exact ih std' ops' r d t h' (hops d t hc)

/-- Standard tags in the accumulator survive the classification loop. -/
theorem classifyTags_std_mono (index : List Pkg) (excl : List String)
    (l : List String) :
    ∀ (std : List String) (ops : List (String × List String))
      (r : List String × List (String × List String)) (t : String),
      classifyTags index excl l std ops = some r →
      t ∈ std → t ∈ r.1 := by
  induction l with
  | nil =>
    intro std ops r t h ht
    unfold classifyTags at h
    cases h
    exact ht
  | cons tag0 rest ih =>
    intro std ops r t h ht
    obtain ⟨std', ops', h', _, hstd⟩ :=
      classifyTags_cons_inv index excl tag0 rest std ops r h
    exact ih std' ops' r t h' (hstd t ht)

/-- A matched, non-excluded tag on a multi-tagged package is recorded
as an untag operation by the classification loop. -/
theorem classifyTags_records (index : List Pkg) (excl : List String)
    (l : List String) :
    ∀ (std : List String) (ops : List (String × List String))
      (r : List String × List (String × List String))
      (tag md : String) (gh : Pkg),
      classifyTags index excl l std ops = some r →
      tag ∈ l → tag ∉ excl → strStartsWith tag "sha256:" = false →
      getDigestByTag index tag = some md →
      getPackageByDigest index md = some gh →
      gh.tags.length > 1 →
      opsContains r.2 md tag := by
  induction l with
  | nil =>
    intro std ops r tag md gh _ hmem
    exact absurd hmem (List.not_mem_nil tag)
  | cons tag0 rest ih =>
    intro std ops r tag md gh h hmem hexcl hraw hdt hgp hlen
    rcases List.mem_cons.mp hmem with rfl | hmem'
    · unfold classifyTags at h
      rw [if_neg hexcl] at h
      have hraw' : ¬ (strStartsWith tag "sha256:" = true) := by
        rw [hraw]
        exact Bool.false_ne_true
      rw [if_neg hraw'] at h
      simp only [hdt, hgp] at h
      rw [if_pos hlen] at h
      exact classifyTags_ops_mono index excl rest std (addOp ops md tag) r md
        tag h (opsContains_addOp_self ops md tag)
    · obtain ⟨std', ops', h', _, _⟩ :=
        classifyTags_cons_inv index excl tag0 rest std ops r h
      exact ih std' ops' r tag md gh h' hmem' hexcl hraw hdt hgp hlen

/-- A matched, non-excluded raw digest lands in the standard set. -/
theorem classifyTags_raw_in_std (index : List Pkg) (excl : List String)
    (l : List String) :
    ∀ (std : List String) (ops : List (String × List String))
      (r : List String × List (String × List String)) (tag : String),
      classifyTags index excl l std ops = some r →
      tag ∈ l → tag ∉ excl → strStartsWith tag "sha256:" = true →
      tag ∈ r.1 := by
  induction l with
  | nil =>
    intro std ops r tag _ hmem
    exact absurd hmem (List.not_mem_nil tag)
  | cons tag0 rest ih =>
    intro std ops r tag h hmem hexcl hraw
    rcases List.mem_cons.mp hmem with rfl | hmem'
    · unfold classifyTags at h
      rw [if_neg hexcl] at h
      rw [if_pos hraw] at h
      exact classifyTags_std_mono index excl rest (setInsert std tag) ops r
        tag h (setInsert_self std tag)
    · obtain ⟨std', ops', h', _, _⟩ :=
        classifyTags_cons_inv index excl tag0 rest std ops r h
      exact ih std' ops' r tag h' hmem' hexcl hraw

/-- A matched, non-excluded tag on a single-tag package lands in the
standard set. -/
theorem classifyTags_single_in_std (index : List Pkg) (excl : List String)
    (l : List String) :
    ∀ (std : List String) (ops : List (String × List String))
      (r : List String × List (String × List String))
      (tag md : String) (gh : Pkg),
      classifyTags index excl l std ops = some r →
      tag ∈ l → tag ∉ excl → strStartsWith tag "sha256:" = false →
      getDigestByTag index tag = some md →
      getPackageByDigest index md = some gh →
      gh.tags.length = 1 →
      tag ∈ r.1 := by
  induction l with
  | nil =>
    intro std ops r tag md gh _ hmem
    exact absurd hmem (List.not_mem_nil tag)
  | cons tag0 rest ih =>
    intro std ops r tag md gh h hmem hexcl hraw hdt hgp hlen
    rcases List.mem_cons.mp hmem with rfl | hmem'
    · unfold classifyTags at h
      rw [if_neg hexcl] at h
      have hraw' : ¬ (strStartsWith tag "sha256:" = true) := by
        rw [hraw]
        exact Bool.false_ne_true
      rw [if_neg hraw'] at h
      simp only [hdt, hgp] at h
      have hnot : ¬ (gh.tags.length > 1) := by omega
      rw [if_neg hnot] at h
      rw [if_pos hlen] at h
      exact classifyTags_std_mono index excl rest (setInsert std tag) ops r
        tag h (setInsert_self std tag)
    · obtain ⟨std', ops', h', _, _⟩ :=
        classifyTags_cons_inv index excl tag0 rest std ops r h
      exact ih std' ops' r tag md gh h' hmem' hexcl hraw hdt hgp hlen

/-- The standard-deletion loop only shrinks the candidate set. -/
theorem applyStandardTags_fs_sub (index : List Pkg) (l : List String) :
    ∀ (ds fs : List String) (x : String),
      x ∈ (applyStandardTags index l ds fs).2 → x ∈ fs := by
  induction l with
  | nil =>
    intro ds fs x hx
    exact hx
  | cons tag rest ih =>
    intro ds fs x hx
    unfold applyStandardTags at hx
    rcases hr : resolveTag index tag with _ | d <;> simp only [hr] at hx
    · exact ih ds fs x hx
    · exact List.mem_of_mem_erase (ih (setInsert ds d) (fs.erase d) x hx)

/-- The standard-deletion loop only grows the delete set. -/
theorem applyStandardTags_ds_mono (index : List Pkg) (l : List String) :
    ∀ (ds fs : List String) (x : String),
      x ∈ ds → x ∈ (applyStandardTags index l ds fs).1 := by
  induction l with
  | nil =>
    intro ds fs x hx
    exact hx
  | cons tag rest ih =>
    intro ds fs x hx
    unfold applyStandardTags
    rcases hr : resolveTag index tag with _ | d <;> simp only [hr]
    · exact ih ds fs x hx
    · exact ih (setInsert ds d) (fs.erase d) x (setInsert_mem ds d x hx)

/-- A standard tag's resolved digest is added to the delete set and,
for a duplicate-free candidate set, removed from it. -/
theorem applyStandardTags_adds (index : List Pkg) (l : List String) :
    ∀ (ds fs : List String) (tag dg : String),
      tag ∈ l → resolveTag index tag = some dg →
      dg ∈ (applyStandardTags index l ds fs).1 ∧
      (fs.Nodup → dg ∉ (applyStandardTags index l ds fs).2) := by
  induction l with
  | nil =>
    intro ds fs tag dg hmem
    exact absurd hmem (List.not_mem_nil tag)
  | cons tag0 rest ih =>
    intro ds fs tag dg hmem hres
    rcases List.mem_cons.mp hmem with rfl | hmem'
    · unfold applyStandardTags
      simp only [hres]
      refine ⟨applyStandardTags_ds_mono index rest (setInsert ds dg)
        (fs.erase dg) dg (setInsert_self ds dg), ?_⟩
      intro hnd hdg
      have : dg ∈ fs.erase dg :=
        applyStandardTags_fs_sub index rest (setInsert ds dg) (fs.erase dg)
          dg hdg
      exact ((List.Nodup.mem_erase_iff hnd).mp this).1 rfl
    · unfold applyStandardTags
      rcases hr : resolveTag index tag0 with _ | d <;> simp only [hr]
      · exact ih ds fs tag dg hmem' hres
      · have := ih (setInsert ds d) (fs.erase d) tag dg hmem' hres
        exact ⟨this.1, fun hnd => this.2 (hnd.erase d)⟩

/-! ## Claim theorems: deletion strategy -/

/-- C8: with a tag-deletion selector configured, when `keep-n-tagged`
is active `processTagDeletions` adds no digest to the plan's delete set
and leaves the candidate set unchanged, while untag operations for
matched, non-excluded, multi-tagged packages are still recorded; when
`keep-n-tagged` is not set, every matched non-excluded raw digest, and
the digest of every matched non-excluded single-tag package, is added
to the delete set and removed from the candidate set. -/
theorem claim8_keepN_defers_outright_deletions :
    (∀ (keepN : Nat) (matchFn : String → Bool) (index : List Pkg)
        (fs excl : List String) (plan : Plan) (fs' : List String),
      processTagDeletions true (some keepN) matchFn index fs excl =
        some (plan, fs') →
      (plan.deleteSet = [] ∧ fs' = fs ∧
       ∀ (mts : List String) (tag md : String) (gh : Pkg),
         expandTags matchFn index fs = some mts →
         tag ∈ mts → tag ∉ excl → strStartsWith tag "sha256:" = false →
         getDigestByTag index tag = some md →
         getPackageByDigest index md = some gh → gh.tags.length > 1 →
         opsContains plan.untagOps md tag)) ∧
    (∀ (matchFn : String → Bool) (index : List Pkg)
        (fs excl : List String) (plan : Plan) (fs' : List String)
        (mts : List String) (tag : String),
      fs.Nodup →
      processTagDeletions true none matchFn index fs excl = some (plan, fs') →
      expandTags matchFn index fs = some mts →
      tag ∈ mts → tag ∉ excl →
      ((strStartsWith tag "sha256:" = true →
          tag ∈ plan.deleteSet ∧ tag ∉ fs') ∧
       (∀ (md : String) (gh : Pkg), strStartsWith tag "sha256:" = false →
          getDigestByTag index tag = some md →
          getPackageByDigest index md = some gh → gh.tags.length = 1 →
          md ∈ plan.deleteSet ∧ md ∉ fs'))) := by
  constructor
  · intro keepN matchFn index fs excl plan fs' h
    unfold processTagDeletions at h
    rw [if_pos rfl] at h
    rcases hmt : expandTags matchFn index fs with _ | mts0 <;>
      simp only [hmt] at h
    · exact Option.noConfusion h
    · by_cases hmts0 : mts0 = []
      · rw [if_pos hmts0] at h
        cases h
        refine ⟨rfl, rfl, ?_⟩
        intro mts tag md gh hmt2 htag _ _ _ _ _
        have hmm : mts0 = mts := Option.some.inj hmt2
        subst hmm
        exact absurd htag (by rw [hmts0]; exact List.not_mem_nil tag)
      · rw [if_neg hmts0] at h
        rcases hcl : classifyTags index excl mts0 [] [] with _ | ⟨std, ops⟩ <;>
          simp only [hcl] at h
        · exact Option.noConfusion h
        · have hguard : ¬ (std ≠ [] ∧ (some keepN : Option Nat) = none) := by
            rintro ⟨-, hc⟩
            exact Option.noConfusion hc
          rw [if_neg hguard] at h
          cases h
          refine ⟨rfl, rfl, ?_⟩
          intro mts tag md gh hmt2 htag hexcl hraw hdt hgp hlen
          have hmm : mts0 = mts := Option.some.inj hmt2
          subst hmm
          exact classifyTags_records index excl mts0 [] [] (std, ops) tag md
            gh hcl htag hexcl hraw hdt hgp hlen
  · intro matchFn index fs excl plan fs' mts tag hnd h hmt2 htag hexcl
    unfold processTagDeletions at h
    rw [if_pos rfl] at h
    rcases hmt : expandTags matchFn index fs with _ | mts0 <;>
      simp only [hmt] at h
    · exact Option.noConfusion h
    · rw [hmt] at hmt2
      have hmm : mts0 = mts := Option.some.inj hmt2
      subst hmm
      by_cases hmts0 : mts0 = []
      · exact absurd htag (by rw [hmts0]; exact List.not_mem_nil tag)
      · rw [if_neg hmts0] at h
        rcases hcl : classifyTags index excl mts0 [] [] with _ | ⟨std, ops⟩ <;>
          simp only [hcl] at h
        · exact Option.noConfusion h
        · constructor
          · intro hraw
            have hstd : tag ∈ std :=
              classifyTags_raw_in_std index excl mts0 [] [] (std, ops) tag
                hcl htag hexcl hraw
            have hne : std ≠ [] := List.ne_nil_of_mem hstd
            rw [if_pos ⟨hne, trivial⟩] at h
            cases h
            have hres : resolveTag index tag = some tag := by
              rw [resolveTag, if_pos hraw]
            have hadd := applyStandardTags_adds index std [] fs tag tag
              hstd hres
            exact ⟨hadd.1, hadd.2 hnd⟩
          · intro md gh hraw hdt hgp hlen
            have hstd : tag ∈ std :=
              classifyTags_single_in_std index excl mts0 [] [] (std, ops)
                tag md gh hcl htag hexcl hraw hdt hgp hlen
            have hne : std ≠ [] := List.ne_nil_of_mem hstd
            rw [if_pos ⟨hne, trivial⟩] at h
            cases h
            have hres : resolveTag index tag = some md := by
              rw [resolveTag, if_neg (by rw [hraw]; exact Bool.false_ne_true)]
              exact hdt
            have hadd := applyStandardTags_adds index std [] fs tag md
              hstd hres
            exact ⟨hadd.1, hadd.2 hnd⟩

/-- Witness for C8: in the strategy scenario, with `keep-n-tagged`
active the multi-tag `t2` operation is recorded while the delete set is
empty, and without it the single-tag digest `sha256:d1` moves from the
candidate set to the delete set. -/
theorem claim8_witness :
    opsContains [("sha256:d2", ["t2"])] "sha256:d2" "t2" ∧
    ("sha256:d1" ∈ (["sha256:d1"] : List String) ∧
     "sha256:d1" ∉ (["sha256:d2"] : List String)) :=
  ⟨(claim8_keepN_defers_outright_deletions.1 5 matchT12 idxStrat
      ["sha256:d1", "sha256:d2"] [] ⟨[], [("sha256:d2", ["t2"])]⟩
      ["sha256:d1", "sha256:d2"] (by decide)).2.2 ["t1", "t2"] "t2"
      "sha256:d2" ⟨2, "sha256:d2", ["t2", "t3"], none⟩ (by decide) (by decide)
      (by decide) (by decide) (by decide) (by decide) (by decide),
   (claim8_keepN_defers_outright_deletions.2 matchT12 idxStrat
      ["sha256:d1", "sha256:d2"] [] ⟨["sha256:d1"], [("sha256:d2", ["t2"])]⟩
      ["sha256:d2"] ["t1", "t2"] "t1" (by decide) (by decide) (by decide)
      (by decide) (by decide)).2 "sha256:d1" ⟨1, "sha256:d1", ["t1"], none⟩
      (by decide) (by decide) (by decide) (by decide)⟩

end Ghcr
